import Mathlib

/-!
Verification of the randomized-corruption core of `sage/coding/channel_constructions.py`.

The module under study provides:
* `_random_error_position(n, k)` — a single-pass reservoir-style sampler that
  returns `k` distinct positions in `[0, n)`;
* `_random_error_vector(n, F, positions)` — a sparse vector over a field `F`,
  nonzero exactly at `positions` (rejection sampling of nonzero entries);
* `StaticErrorRateChannel.transmit_unsafe` — adds an error vector with a
  configured number of errors to a message;
* `ErrorErasureChannel.transmit_unsafe` — additionally erases positions,
  returning the corrupted word together with a 0/1 erasure indicator.

The embedding models the stream of `random()` draws as a function `ℕ → ℚ`
(the draw consumed while visiting index `i` is `draws i`; each draw lies in
`[0, 1)`), the per-position streams of `F.random_element()` draws as lists
(an empty or all-zero list corresponds to the diverging rejection loop, hence
the `Option` result), and `randint` for tuple-valued counts as an oracle
`ℤ → ℤ → ℤ`.
-/

namespace SageChannels

/-- One step state of the `while` loop of `_random_error_position`:
`rem` is the number of indices still to visit (`n - i`), `k` the value of the
`number_errors` variable, `i` the current index.  The loop body appends `i`
exactly when the draw consumed at index `i` is below `number_errors / (n - i)`. -/
def sampleAux (draws : ℕ → ℚ) : ℕ → ℤ → ℕ → List ℕ
  | 0, _, _ => []
  | rem + 1, k, i =>
    if k ≤ 0 then []
    else if draws i < (k : ℚ) / ((rem : ℚ) + 1) then
      i :: sampleAux draws rem (k - 1) (i + 1)
    else
      sampleAux draws rem k (i + 1)

/-- Embedding of `_random_error_position(n, number_errors)`: run the loop from
`i = 0` with `n` indices left to visit. -/
def random_error_position (n k : ℤ) (draws : ℕ → ℚ) : List ℕ :=
  sampleAux draws n.toNat k 0

/-- Every element produced by the loop lies in the window `[i, i + rem)`. -/
theorem sampleAux_mem_bounds (draws : ℕ → ℚ) :
    ∀ (rem : ℕ) (k : ℤ) (i : ℕ), ∀ x ∈ sampleAux draws rem k i, i ≤ x ∧ x < i + rem := by
  intro rem
  induction rem with
  | zero => intro k i x hx; simp [sampleAux] at hx
  | succ rem ih =>
    intro k i x hx
    rw [sampleAux] at hx
    by_cases hk : k ≤ 0
    · simp [hk] at hx
    · rw [if_neg hk] at hx
      by_cases hdr : draws i < (k : ℚ) / ((rem : ℚ) + 1)
      · rw [if_pos hdr] at hx
        rcases List.mem_cons.1 hx with h | h
        · omega
        · have := ih (k - 1) (i + 1) x h
          omega
      · rw [if_neg hdr] at hx
        have := ih k (i + 1) x hx
        omega

/-- The loop output is strictly increasing. -/
theorem sampleAux_sorted (draws : ℕ → ℚ) :
    ∀ (rem : ℕ) (k : ℤ) (i : ℕ), (sampleAux draws rem k i).Sorted (· < ·) := by
  intro rem
  induction rem with
  | zero => intro k i; simp [sampleAux]
  | succ rem ih =>
    intro k i
    rw [sampleAux]
    by_cases hk : k ≤ 0
    · simp [hk]
    · rw [if_neg hk]
      by_cases hdr : draws i < (k : ℚ) / ((rem : ℚ) + 1)
      · rw [if_pos hdr]
        refine List.sorted_cons.2 ⟨?_, ih (k - 1) (i + 1)⟩
        intro b hb
        have := sampleAux_mem_bounds draws rem (k - 1) (i + 1) b hb
        omega
      · rw [if_neg hdr]
        exact ih k (i + 1)

/-- If the draw consumed at index `i` is below `1` but not below `k / rem`,
then `k < rem` held (a forced inclusion can only be skipped when the ratio is
below one). -/
theorem sampleAux_skip_le (rem : ℕ) (k : ℤ) (i : ℕ) (draws : ℕ → ℚ)
    (h1 : draws i < 1)
    (hdr : ¬ draws i < (k : ℚ) / ((rem : ℚ) + 1)) : k ≤ rem := by
  by_contra hlt
  push_neg at hlt
  have hrem : ((rem : ℚ) + 1) ≤ (k : ℚ) := by
    have : (rem : ℤ) + 1 ≤ k := by omega
    exact_mod_cast this
  have hpos : (0 : ℚ) < (rem : ℚ) + 1 := by positivity
  have : (1 : ℚ) ≤ (k : ℚ) / ((rem : ℚ) + 1) := (one_le_div hpos).2 hrem
  exact hdr (lt_of_lt_of_le h1 this)

/-- With draws in `[0, 1)` and `0 ≤ k ≤ rem`, the loop emits exactly `k`
positions. -/
theorem sampleAux_length (draws : ℕ → ℚ) (hd : ∀ j, 0 ≤ draws j ∧ draws j < 1) :
    ∀ (rem : ℕ) (k : ℤ), 0 ≤ k → k ≤ rem → ∀ i, (sampleAux draws rem k i).length = k.toNat := by
  intro rem
  induction rem with
  | zero =>
    intro k hk0 hkr i
    have : k = 0 := by omega
    simp [sampleAux, this]
  | succ rem ih =>
    intro k hk0 hkr i
    rw [sampleAux]
    by_cases hk : k ≤ 0
    · have : k = 0 := by omega
      simp [hk, this]
    · rw [if_neg hk]
      by_cases hdr : draws i < (k : ℚ) / ((rem : ℚ) + 1)
      · rw [if_pos hdr]
        have := ih (k - 1) (by omega) (by omega) (i + 1)
        simp [this]
        omega
      · rw [if_neg hdr]
        have hle : k ≤ rem := sampleAux_skip_le rem k i draws (hd i).2 hdr
        exact ih k hk0 hle (i + 1)

/-- Shared form of the sampler guarantees: for `0 ≤ k ≤ n` and draws in
`[0, 1)`, the output has length `k`, is duplicate-free and lies in `[0, n)`. -/
theorem random_error_position_props (n k : ℕ) (draws : ℕ → ℚ)
    (hk : k ≤ n) (hd : ∀ j, 0 ≤ draws j ∧ draws j < 1) :
    (random_error_position n k draws).length = k ∧
    (random_error_position n k draws).Nodup ∧
    ∀ x ∈ random_error_position n k draws, x < n := by
  refine ⟨?_, ?_, ?_⟩
  · have := sampleAux_length draws hd ((n : ℤ)).toNat k (by omega) (by simp; omega) 0
    simpa [random_error_position] using this
  · exact (sampleAux_sorted draws _ _ _).nodup
  · intro x hx
    have := sampleAux_mem_bounds draws ((n : ℤ)).toNat k 0 x hx
    simpa using this.2

/-- C1: for `0 ≤ k ≤ n` and any values drawn from the random source (each in
`[0, 1)`), `_random_error_position(n, k)` returns a list of exactly `k`
distinct integer positions, each in `[0, n)`. -/
theorem random_error_position_spec (n k : ℕ) (draws : ℕ → ℚ)
    (hk : k ≤ n) (hd : ∀ j, 0 ≤ draws j ∧ draws j < 1) :
    (random_error_position n k draws).length = k ∧
    (random_error_position n k draws).Nodup ∧
    ∀ x ∈ random_error_position n k draws, x < n :=
  random_error_position_props n k draws hk hd

/-- Witness for C1 at `n = 3`, `k = 2`, constant draw `1/2`. -/
theorem random_error_position_spec_witness :
    (random_error_position 3 2 (fun _ => (1 : ℚ)/2)).length = 2 ∧
    (random_error_position 3 2 (fun _ => (1 : ℚ)/2)).Nodup ∧
    ∀ x ∈ random_error_position 3 2 (fun _ => (1 : ℚ)/2), x < 3 :=
  random_error_position_spec 3 2 (fun _ => (1 : ℚ)/2) (by norm_num)
    (fun _ => by norm_num)

/-- A list all of whose elements are at least `c` has no element below `c`. -/
theorem filter_lt_eq_nil {c : ℕ} {L : List ℕ} (h : ∀ x ∈ L, c ≤ x) :
    L.filter (fun x => decide (x < c)) = [] := by
  refine List.filter_eq_nil_iff.2 (fun a ha => ?_)
  have := h a ha
  simp only [decide_eq_true_eq]
  omega

/-- Membership characterization of the loop: index `j` is included exactly when
the draw consumed at `j` is below `remaining_to_pick / remaining_candidates`,
where `remaining_to_pick` is `k` minus the number of included indices before
`j` and `remaining_candidates` is the size of the remaining window. -/
theorem sampleAux_mem_iff (draws : ℕ → ℚ) (hd : ∀ j, 0 ≤ draws j ∧ draws j < 1) :
    ∀ (rem : ℕ) (k : ℤ), 0 ≤ k → k ≤ rem → ∀ (i j : ℕ), i ≤ j →
      (j ∈ sampleAux draws rem k i ↔
        j < i + rem ∧
        draws j < ((k : ℚ) -
            (((sampleAux draws rem k i).filter (fun x => decide (x < j))).length : ℚ))
          / ((i : ℚ) + (rem : ℚ) - (j : ℚ))) := by
  intro rem
  induction rem with
  | zero =>
    intro k hk0 hkr i j hij
    simp [sampleAux]
    omega
  | succ rem ih =>
    intro k hk0 hkr i j hij
    rw [sampleAux]
    by_cases hk : k ≤ 0
    · have hkz : k = 0 := by omega
      subst hkz
      simp only [le_refl, if_true, List.not_mem_nil, false_iff, List.filter_nil,
        List.length_nil, Int.cast_zero, Nat.cast_zero, sub_zero, zero_div, not_and]
      intro _
      exact not_lt.2 (hd j).1
    · rw [if_neg hk]
      by_cases hdr : draws i < (k : ℚ) / ((rem : ℚ) + 1)
      · rw [if_pos hdr]
        rcases Nat.eq_or_lt_of_le hij with hji | hji
        · subst hji
          have hfil :
              ((i :: sampleAux draws rem (k - 1) (i + 1)).filter
                (fun x => decide (x < i))) = [] := by
            refine filter_lt_eq_nil ?_
            intro x hx
            rcases List.mem_cons.1 hx with h | h
            · omega
            · exact le_of_lt (lt_of_lt_of_le (Nat.lt_succ_self i)
                (sampleAux_mem_bounds draws rem (k - 1) (i + 1) x h).1)
          rw [hfil]
          simp only [List.mem_cons, List.length_nil, Nat.cast_zero, sub_zero]
          constructor
          · intro _
            refine ⟨by omega, ?_⟩
            have hden : (i : ℚ) + ((rem : ℕ) + 1 : ℕ) - (i : ℚ) = (rem : ℚ) + 1 := by
              push_cast
              ring
            rw [hden]
            exact hdr
          · intro _
            exact Or.inl trivial
        · -- j > i
          have hij1 : i + 1 ≤ j := hji
          have hIH := ih (k - 1) (by omega) (by omega) (i + 1) j hij1
          have hfil :
              ((i :: sampleAux draws rem (k - 1) (i + 1)).filter
                (fun x => decide (x < j))) =
              i :: ((sampleAux draws rem (k - 1) (i + 1)).filter
                (fun x => decide (x < j))) := by
            rw [List.filter_cons]
            simp only [decide_eq_true_eq]
            rw [if_pos hji]
          rw [hfil]
          simp only [List.mem_cons, List.length_cons]
          have hne : ¬ j = i := by omega
          rw [or_iff_right hne]
          rw [hIH]
          constructor
          · rintro ⟨h1, h2⟩
            refine ⟨by omega, ?_⟩
            convert h2 using 2
            · push_cast
              ring
            · push_cast
              ring
          · rintro ⟨h1, h2⟩
            refine ⟨by omega, ?_⟩
            convert h2 using 2
            · push_cast
              ring
            · push_cast
              ring
      · rw [if_neg hdr]
        have hle : k ≤ rem := sampleAux_skip_le rem k i draws (hd i).2 hdr
        rcases Nat.eq_or_lt_of_le hij with hji | hji
        · subst hji
          have hnotmem : i ∉ sampleAux draws rem k (i + 1) := by
            intro hmem
            have := (sampleAux_mem_bounds draws rem k (i + 1) i hmem).1
            omega
          have hfil :
              ((sampleAux draws rem k (i + 1)).filter (fun x => decide (x < i))) = [] := by
            refine filter_lt_eq_nil ?_
            intro x hx
            exact le_of_lt (lt_of_lt_of_le (Nat.lt_succ_self i)
              (sampleAux_mem_bounds draws rem k (i + 1) x hx).1)
          rw [hfil]
          simp only [List.length_nil, Nat.cast_zero, sub_zero]
          constructor
          · intro hmem
            exact absurd hmem hnotmem
          · rintro ⟨-, h2⟩
            exfalso
            apply hdr
            have hden : (i : ℚ) + ((rem : ℕ) + 1 : ℕ) - (i : ℚ) = (rem : ℚ) + 1 := by
              push_cast
              ring
            rw [hden] at h2
            exact h2
        · have hij1 : i + 1 ≤ j := hji
          have hIH := ih k hk0 hle (i + 1) j hij1
          rw [hIH]
          constructor
          · rintro ⟨h1, h2⟩
            refine ⟨by omega, ?_⟩
            convert h2 using 2
            push_cast
            ring
          · rintro ⟨h1, h2⟩
            refine ⟨by omega, ?_⟩
            convert h2 using 2
            push_cast
            ring

/-- A strictly increasing list of naturals with all elements in `[a, b)` has at
most `b - a` elements. -/
theorem sorted_length_le :
    ∀ (S : List ℕ) (a b : ℕ), S.Sorted (· < ·) → (∀ x ∈ S, a ≤ x ∧ x < b) →
      S.length ≤ b - a := by
  intro S
  induction S with
  | nil => intro a b _ _; simp
  | cons x t ih =>
    intro a b hs hb
    have hxt : ∀ y ∈ t, x < y := (List.sorted_cons.1 hs).1
    have ht : t.Sorted (· < ·) := (List.sorted_cons.1 hs).2
    have hbt : ∀ y ∈ t, x + 1 ≤ y ∧ y < b := fun y hy =>
      ⟨hxt y hy, (hb y (List.mem_cons_of_mem x hy)).2⟩
    have hlen := ih (x + 1) b ht hbt
    have hx := hb x (List.mem_cons_self x t)
    simp only [List.length_cons]
    omega

/-- Probability that the sampling loop, run from state `(rem, k, i)` with each
draw uniform on `[0, 1)`, emits exactly the list `L`: at each visited index the
inclusion branch has probability `k / rem` and the exclusion branch `1 - k / rem`. -/
def sampleProb : ℕ → ℕ → ℕ → List ℕ → ℚ
  | 0, _, _, L => if L = [] then 1 else 0
  | rem + 1, k, i, L =>
    if k = 0 then (if L = [] then 1 else 0)
    else
      match L with
      | [] => (1 - (k : ℚ) / ((rem : ℚ) + 1)) * sampleProb rem k (i + 1) []
      | j :: t =>
        if j = i then ((k : ℚ) / ((rem : ℚ) + 1)) * sampleProb rem (k - 1) (i + 1) t
        else (1 - (k : ℚ) / ((rem : ℚ) + 1)) * sampleProb rem k (i + 1) (j :: t)

/-- Reservoir sampling is unbiased: every strictly increasing candidate list of
length `k` drawn from the window `[i, i + rem)` is emitted with the same
probability `1 / C(rem, k)`. -/
theorem sampleProb_uniform :
    ∀ (rem : ℕ) (k i : ℕ) (S : List ℕ), k ≤ rem → S.Sorted (· < ·) → S.length = k →
      (∀ x ∈ S, i ≤ x ∧ x < i + rem) →
      sampleProb rem k i S = 1 / (rem.choose k : ℚ) := by
  intro rem
  induction rem with
  | zero =>
    intro k i S hk _ hl _
    have hk0 : k = 0 := by omega
    subst hk0
    have hS : S = [] := List.length_eq_zero.1 hl
    subst hS
    simp [sampleProb]
  | succ rem ih =>
    intro k i S hk hs hl hb
    rcases Nat.eq_zero_or_pos k with hk0 | hkpos
    · subst hk0
      have hS : S = [] := List.length_eq_zero.1 hl
      subst hS
      simp [sampleProb]
    · have hkne : k ≠ 0 := by omega
      cases S with
      | nil =>
        simp at hl
        omega
      | cons j t =>
        rw [sampleProb, if_neg hkne]
        have hji : i ≤ j := (hb j (List.mem_cons_self j t)).1
        have hjb : j < i + (rem + 1) := (hb j (List.mem_cons_self j t)).2
        have hts : t.Sorted (· < ·) := (List.sorted_cons.1 hs).2
        have hjt : ∀ y ∈ t, j < y := (List.sorted_cons.1 hs).1
        by_cases hj : j = i
        · rw [if_pos hj]
          subst hj
          have hlt : t.length = k - 1 := by
            simp only [List.length_cons] at hl
            omega
          have hbt : ∀ x ∈ t, (j + 1) ≤ x ∧ x < (j + 1) + rem := by
            intro x hx
            have h1 := hjt x hx
            have h2 := (hb x (List.mem_cons_of_mem j hx)).2
            omega
          have hrec := ih (k - 1) (j + 1) t (by omega) hts hlt hbt
          rw [hrec]
          have hchoose : Nat.choose (rem + 1) k * k = (rem + 1) * Nat.choose rem (k - 1) := by
            have h := Nat.succ_mul_choose_eq rem (k - 1)
            simp only [Nat.succ_eq_add_one] at h
            have hk1 : k - 1 + 1 = k := by omega
            rw [hk1] at h
            omega
          have hcast : (Nat.choose (rem + 1) k : ℚ) * (k : ℚ) =
              ((rem : ℚ) + 1) * (Nat.choose rem (k - 1) : ℚ) := by
            exact_mod_cast congrArg (fun z : ℕ => (z : ℚ)) hchoose
          have hc0 : (Nat.choose rem (k - 1) : ℚ) ≠ 0 :=
            Nat.cast_ne_zero.2 (Nat.choose_pos (by omega)).ne'
          have hc1 : (Nat.choose (rem + 1) k : ℚ) ≠ 0 :=
            Nat.cast_ne_zero.2 (Nat.choose_pos (by omega)).ne'
          have hpos : ((rem : ℚ) + 1) * (Nat.choose rem (k - 1) : ℚ) ≠ 0 := by
            apply mul_ne_zero _ hc0
            positivity
          rw [div_mul_div_comm, mul_one, div_eq_div_iff hpos hc1, one_mul]
          linear_combination hcast
        · rw [if_neg hj]
          have hij1 : i + 1 ≤ j := by omega
          have hble : ∀ x ∈ j :: t, (i + 1) ≤ x ∧ x < (i + 1) + rem := by
            intro x hx
            rcases List.mem_cons.1 hx with h | h
            · omega
            · have h1 := hjt x h
              have h2 := (hb x (List.mem_cons_of_mem j h)).2
              omega
          have hkrem : k ≤ rem := by
            have := sorted_length_le (j :: t) (i + 1) ((i + 1) + rem) hs hble
            omega
          have hrec := ih k (i + 1) (j :: t) hkrem hs hl hble
          rw [hrec]
          have hkk : k ≤ rem + 1 := by omega
          have hchoose : Nat.choose (rem + 1) k * (rem + 1 - k) =
              (rem + 1) * Nat.choose rem k := by
            have h1 := Nat.choose_succ_right_eq (rem + 1) k
            have h2 := Nat.succ_mul_choose_eq rem k
            simp only [Nat.succ_eq_add_one] at h1 h2
            omega
          have hcast : (Nat.choose (rem + 1) k : ℚ) * ((rem : ℚ) + 1 - (k : ℚ)) =
              ((rem : ℚ) + 1) * (Nat.choose rem k : ℚ) := by
            have h := congrArg (fun z : ℕ => (z : ℚ)) hchoose
            push_cast [Nat.cast_sub hkk] at h
            exact h
          have hc0 : (Nat.choose rem k : ℚ) ≠ 0 :=
            Nat.cast_ne_zero.2 (Nat.choose_pos hkrem).ne'
          have hc1 : (Nat.choose (rem + 1) k : ℚ) ≠ 0 :=
            Nat.cast_ne_zero.2 (Nat.choose_pos (by omega)).ne'
          have hr1 : ((rem : ℚ) + 1) ≠ 0 := by positivity
          have hone : (1 : ℚ) - (k : ℚ) / ((rem : ℚ) + 1) =
              ((rem : ℚ) + 1 - (k : ℚ)) / ((rem : ℚ) + 1) := by
            field_simp
          have hpos : ((rem : ℚ) + 1) * (Nat.choose rem k : ℚ) ≠ 0 :=
            mul_ne_zero hr1 hc0
          rw [hone, div_mul_div_comm, mul_one, div_eq_div_iff hpos hc1, one_mul]
          linear_combination hcast

/-- C2: the sampler visits indices left to right and includes index `j` exactly
when the value drawn there is below the exact rational `remaining_to_pick /
remaining_candidates` (with `remaining_to_pick` decremented at each inclusion);
consequently every size-`k` subset of `[0, n)` is produced with the same
probability `1 / C(n, k)`. -/
theorem random_error_position_mechanism_uniform (n k : ℕ) (draws : ℕ → ℚ)
    (hk : k ≤ n) (hd : ∀ j, 0 ≤ draws j ∧ draws j < 1) :
    (∀ j : ℕ, j ∈ random_error_position n k draws ↔
        j < n ∧
        draws j < ((k : ℚ) -
            (((random_error_position n k draws).filter (fun x => decide (x < j))).length : ℚ))
          / ((n : ℚ) - (j : ℚ))) ∧
    (∀ S : List ℕ, S.Sorted (· < ·) → S.length = k → (∀ x ∈ S, x < n) →
      sampleProb n k 0 S = 1 / (n.choose k : ℚ)) := by
  constructor
  · intro j
    have h := sampleAux_mem_iff draws hd ((n : ℤ)).toNat k (by omega)
      (by simp; omega) 0 j (Nat.zero_le j)
    simpa [random_error_position] using h
  · intro S hs hl hb
    exact sampleProb_uniform n k 0 S hk hs hl
      (fun x hx => ⟨Nat.zero_le x, by simpa using hb x hx⟩)

/-- Witness for C2 at `n = 3`, `k = 2`, constant draw `1/2`. -/
theorem random_error_position_mechanism_uniform_witness :
    (∀ j : ℕ, j ∈ random_error_position 3 2 (fun _ => (1 : ℚ)/2) ↔
        j < 3 ∧
        (1 : ℚ)/2 < ((2 : ℚ) -
            (((random_error_position 3 2 (fun _ => (1 : ℚ)/2)).filter
                (fun x => decide (x < j))).length : ℚ))
          / ((3 : ℚ) - (j : ℚ))) ∧
    (∀ S : List ℕ, S.Sorted (· < ·) → S.length = 2 → (∀ x ∈ S, x < 3) →
      sampleProb 3 2 0 S = 1 / (Nat.choose 3 2 : ℚ)) := by
  have h := random_error_position_mechanism_uniform 3 2 (fun _ => (1 : ℚ)/2)
    (by norm_num) (fun _ => by norm_num)
  simpa using h

/-- When the `number_errors` variable is not positive, the loop exits at once. -/
theorem sampleAux_nonpos (draws : ℕ → ℚ) :
    ∀ (rem : ℕ) (k : ℤ), k ≤ 0 → ∀ i, sampleAux draws rem k i = [] := by
  intro rem
  cases rem <;> intro k hk i <;> simp [sampleAux, hk]

/-- When at least as many picks as candidates remain, the inclusion ratio is at
least one, so every remaining index is included. -/
theorem sampleAux_all (draws : ℕ → ℚ) (hd : ∀ j, 0 ≤ draws j ∧ draws j < 1) :
    ∀ (rem : ℕ) (k : ℤ), (rem : ℤ) ≤ k → ∀ i,
      sampleAux draws rem k i = List.range' i rem := by
  intro rem
  induction rem with
  | zero => intro k _ i; simp [sampleAux]
  | succ rem ih =>
    intro k hk i
    rw [sampleAux]
    have hk0 : ¬ k ≤ 0 := by omega
    rw [if_neg hk0]
    have hinc : draws i < (k : ℚ) / ((rem : ℚ) + 1) := by
      have h1 : ((rem : ℚ) + 1) ≤ (k : ℚ) := by
        have : (rem : ℤ) + 1 ≤ k := by omega
        exact_mod_cast this
      have hpos : (0 : ℚ) < (rem : ℚ) + 1 := by positivity
      exact lt_of_lt_of_le (hd i).2 ((one_le_div hpos).2 h1)
    rw [if_pos hinc, ih (k - 1) (by omega) (i + 1)]
    exact (List.range'_succ i rem 1).symm

/-- C7 (amended): `_random_error_position` never signals an error.  For
`k < 0` it returns the empty list, and for `k > n` it returns every position
of `[0, n)` (hence fewer than `k` positions), in both cases terminating
normally instead of failing. -/
theorem random_error_position_no_failure (n k : ℤ) (draws : ℕ → ℚ)
    (hd : ∀ j, 0 ≤ draws j ∧ draws j < 1) :
    (k < 0 → random_error_position n k draws = []) ∧
    (n < k → random_error_position n k draws = List.range n.toNat) := by
  constructor
  · intro hk
    exact sampleAux_nonpos draws _ k (by omega) 0
  · intro hnk
    rcases le_or_lt k 0 with hk0 | hk0
    · have h1 : random_error_position n k draws = [] :=
        sampleAux_nonpos draws _ k hk0 0
      have h2 : n.toNat = 0 := by omega
      rw [h1, h2]
      rfl
    · have hle : ((n.toNat : ℕ) : ℤ) ≤ k := by omega
      have h := sampleAux_all draws hd n.toNat k hle 0
      rw [random_error_position, h, List.range_eq_range']

/-- Witness for the amended C7 at `n = 2`, `k = 3`, constant draw `1/2`. -/
theorem random_error_position_no_failure_witness :
    ((3 : ℤ) < 0 → random_error_position 2 3 (fun _ => (1 : ℚ)/2) = []) ∧
    ((2 : ℤ) < 3 → random_error_position 2 3 (fun _ => (1 : ℚ)/2) =
      List.range ((2 : ℤ)).toNat) :=
  random_error_position_no_failure 2 3 (fun _ => (1 : ℚ)/2) (fun _ => by norm_num)

/-- Counterexample to C7 as stated: at `n = 2`, `k = 3` the sampler does not
fail; it returns the ordinary value `[0, 1]` — in particular not a list of
`k = 3` positions — and the source body contains no raise statement at all. -/
theorem random_error_position_failure_cex :
    random_error_position 2 3 (fun _ => (1 : ℚ)/2) = [0, 1] ∧
    (random_error_position 2 3 (fun _ => (1 : ℚ)/2)).length ≠ 3 := by
  have h : random_error_position 2 3 (fun _ => (1 : ℚ)/2) = [0, 1] := by
    norm_num [random_error_position, sampleAux]
  refine ⟨h, ?_⟩
  rw [h]
  decide

/-- Reading a set list off the modified index is unchanged. -/
theorem getD_set_ne {α : Type} (l : List α) (d : α) {i j : ℕ} (a : α) (h : i ≠ j) :
    (l.set i a).getD j d = l.getD j d := by
  simp only [List.getD_eq_getElem?_getD]
  rw [List.getElem?_set_ne h]

/-- Reading a set list at the modified index yields the written value. -/
theorem getD_set_self {α : Type} (l : List α) (d : α) {i : ℕ} (a : α) (h : i < l.length) :
    (l.set i a).getD i d = a := by
  simp only [List.getD_eq_getElem?_getD]
  rw [List.getElem?_set_self h]
  rfl

/-- Reading a replicated list always yields the replicated value. -/
theorem getD_replicate {α : Type} (d : α) (n j : ℕ) : (List.replicate n d).getD j d = d := by
  simp only [List.getD_eq_getElem?_getD, List.getElem?_replicate]
  by_cases h : j < n <;> simp [h]

section ErrorVector

variable {F : Type} [Field F] [DecidableEq F]

/-- One call of the rejection loop `while vect[i].is_zero(): vect[i] =
F.random_element()`: scan the stream of draws and return the first nonzero
one; `none` models the loop diverging on an all-zero stream. -/
def drawNonzero : List F → Option F
  | [] => none
  | a :: rest => if a = 0 then drawNonzero rest else a

/-- Loop body of `_random_error_vector`: position `i` is redrawn until nonzero
only when the current entry is zero. -/
def revStep (vals : ℕ → List F) (vect : List F) (i : ℕ) : Option (List F) :=
  if vect.getD i 0 = 0 then (drawNonzero (vals i)).map (fun a => vect.set i a)
  else some vect

/-- Embedding of `_random_error_vector(n, F, error_positions)`: start from the
all-zero vector of length `n` and fill each listed position with a random
nonzero element, `vals i` being the stream of `F.random_element()` draws
consumed at position `i`. -/
def random_error_vector (n : ℕ) (error_positions : List ℕ) (vals : ℕ → List F) :
    Option (List F) :=
  error_positions.foldlM (revStep vals) (List.replicate n (0 : F))

theorem drawNonzero_ne_zero :
    ∀ (l : List F) (a : F), drawNonzero l = some a → a ≠ 0 := by
  intro l
  induction l with
  | nil => intro a h; simp [drawNonzero] at h
  | cons b rest ih =>
    intro a h
    rw [drawNonzero] at h
    by_cases hb : b = 0
    · rw [if_pos hb] at h
      exact ih a h
    · rw [if_neg hb] at h
      obtain rfl : b = a := by simpa using h
      exact hb

theorem drawNonzero_isSome :
    ∀ l : List F, (∃ a ∈ l, a ≠ 0) → ∃ a, drawNonzero l = some a := by
  intro l
  induction l with
  | nil => rintro ⟨a, ha, -⟩; simp at ha
  | cons b rest ih =>
    rintro ⟨a, ha, hne⟩
    rw [drawNonzero]
    by_cases hb : b = 0
    · rw [if_pos hb]
      apply ih
      rcases List.mem_cons.1 ha with h | h
      · exact absurd (h ▸ hb) hne
      · exact ⟨a, h, hne⟩
    · rw [if_neg hb]
      exact ⟨b, rfl⟩

theorem revStep_some {vals : ℕ → List F} {v w : List F} {i : ℕ}
    (h : revStep vals v i = some w) :
    w.length = v.length ∧ (∀ j, j ≠ i → w.getD j 0 = v.getD j 0) ∧
      (∀ j, v.getD j 0 ≠ 0 → w.getD j 0 ≠ 0) ∧
      (i < v.length → w.getD i 0 ≠ 0) := by
  rw [revStep] at h
  by_cases hz : v.getD i 0 = 0
  · rw [if_pos hz] at h
    cases hdraw : drawNonzero (vals i) with
    | none => rw [hdraw] at h; simp at h
    | some a =>
      rw [hdraw] at h
      obtain rfl : v.set i a = w := by simpa using h
      have hane : a ≠ 0 := drawNonzero_ne_zero _ a hdraw
      refine ⟨by simp, ?_, ?_, ?_⟩
      · intro j hj
        exact getD_set_ne v 0 a (fun hh => hj hh.symm)
      · intro j hj
        by_cases hij : j = i
        · subst hij
          exact absurd hz hj
        · rw [getD_set_ne v 0 a (fun hh => hij hh.symm)]
          exact hj
      · intro hlen
        rw [getD_set_self v 0 a hlen]
        exact hane
  · rw [if_neg hz] at h
    obtain rfl : v = w := by simpa using h
    exact ⟨rfl, fun _ _ => rfl, fun _ hj => hj, fun _ => hz⟩

theorem revStep_isSome {vals : ℕ → List F} (v : List F) (i : ℕ)
    (h : ∃ a ∈ vals i, a ≠ 0) : ∃ w, revStep vals v i = some w := by
  rw [revStep]
  by_cases hz : v.getD i 0 = 0
  · rw [if_pos hz]
    obtain ⟨a, ha⟩ := drawNonzero_isSome (vals i) h
    exact ⟨v.set i a, by rw [ha]; rfl⟩
  · rw [if_neg hz]
    exact ⟨v, rfl⟩

theorem foldlM_revStep_some {vals : ℕ → List F} :
    ∀ (ps : List ℕ) (v w : List F), ps.foldlM (revStep vals) v = some w →
      w.length = v.length ∧ (∀ j, j ∉ ps → w.getD j 0 = v.getD j 0) ∧
        (∀ j, v.getD j 0 ≠ 0 → w.getD j 0 ≠ 0) ∧
        (∀ j ∈ ps, j < v.length → w.getD j 0 ≠ 0) := by
  intro ps
  induction ps with
  | nil =>
    intro v w h
    obtain rfl : v = w := by simpa using h
    exact ⟨rfl, fun _ _ => rfl, fun _ hj => hj, fun j hj => by simp at hj⟩
  | cons i rest ih =>
    intro v w h
    rw [List.foldlM_cons] at h
    cases hstep : revStep vals v i with
    | none => rw [hstep] at h; simp at h
    | some v' =>
      rw [hstep] at h
      simp only [Option.bind_eq_bind, Option.some_bind] at h
      obtain ⟨hlen', hne', hnz', hit'⟩ := revStep_some hstep
      obtain ⟨hlen, hne, hnz, hit⟩ := ih v' w h
      refine ⟨hlen.trans hlen', ?_, ?_, ?_⟩
      · intro j hj
        have hji : j ≠ i := fun hh => hj (hh ▸ List.mem_cons_self i rest)
        have hjr : j ∉ rest := fun hh => hj (List.mem_cons_of_mem i hh)
        rw [hne j hjr, hne' j hji]
      · intro j hj
        exact hnz j (hnz' j hj)
      · intro j hj hjlen
        rcases List.mem_cons.1 hj with rfl | hjr
        · exact hnz j (hit' hjlen)
        · exact hit j hjr (by omega)

theorem foldlM_revStep_isSome {vals : ℕ → List F} :
    ∀ (ps : List ℕ), (∀ i ∈ ps, ∃ a ∈ vals i, a ≠ 0) →
      ∀ v : List F, ∃ w, ps.foldlM (revStep vals) v = some w := by
  intro ps
  induction ps with
  | nil => intro _ v; exact ⟨v, rfl⟩
  | cons i rest ih =>
    intro hex v
    obtain ⟨v', hv'⟩ := revStep_isSome v i (hex i (List.mem_cons_self i rest))
    obtain ⟨w, hw⟩ := ih (fun j hj => hex j (List.mem_cons_of_mem i hj)) v'
    refine ⟨w, ?_⟩
    rw [List.foldlM_cons, hv']
    simpa using hw

/-- Shared form of the error-vector guarantees: for positions inside `[0, n)`
and adequate draw streams, the builder succeeds and returns a vector of length
`n`, zero off the positions and nonzero on them. -/
theorem random_error_vector_props (n : ℕ) (positions : List ℕ) (vals : ℕ → List F)
    (hlt : ∀ i ∈ positions, i < n)
    (hex : ∀ i ∈ positions, ∃ a ∈ vals i, a ≠ 0) :
    ∃ w, random_error_vector n positions vals = some w ∧ w.length = n ∧
      (∀ j, j ∉ positions → w.getD j 0 = 0) ∧
      (∀ j ∈ positions, w.getD j 0 ≠ 0) := by
  obtain ⟨w, hw⟩ := foldlM_revStep_isSome positions hex (List.replicate n (0 : F))
  obtain ⟨hlen, hne, -, hit⟩ := foldlM_revStep_some positions _ w hw
  refine ⟨w, hw, by simpa using hlen, ?_, ?_⟩
  · intro j hj
    rw [hne j hj]
    exact getD_replicate 0 n j
  · intro j hj
    exact hit j hj (by simpa using hlt j hj)

/-- C6: for distinct positions inside `[0, n)` and adequate draw streams (the
rejection loop terminates, which over a field with at least two elements has
probability one), `_random_error_vector(n, F, positions)` returns a vector of
dimension `n` that is zero at every position outside `positions` and strictly
nonzero at every position of `positions`. -/
theorem random_error_vector_spec (n : ℕ) (positions : List ℕ) (vals : ℕ → List F)
    (_hnd : positions.Nodup) (hlt : ∀ i ∈ positions, i < n)
    (hex : ∀ i ∈ positions, ∃ a ∈ vals i, a ≠ 0) :
    ∃ w, random_error_vector n positions vals = some w ∧ w.length = n ∧
      (∀ j, j ∉ positions → w.getD j 0 = 0) ∧
      (∀ j ∈ positions, w.getD j 0 ≠ 0) :=
  random_error_vector_props n positions vals hlt hex

/-- Witness for C6 over `GF(2)` at `n = 2`, `positions = [1]`, draw stream
`[0, 1]` at every position. -/
theorem random_error_vector_spec_witness :
    ∃ w, random_error_vector 2 [1] (fun _ => [(0 : ZMod 2), 1]) = some w ∧
      w.length = 2 ∧ (∀ j, j ∉ [1] → w.getD j 0 = 0) ∧
      (∀ j ∈ [1], w.getD j 0 ≠ 0) :=
  random_error_vector_spec 2 [1] (fun _ => [(0 : ZMod 2), 1])
    (by decide) (by decide)
    (fun i _ => ⟨1, List.mem_cons_of_mem 0 (List.mem_cons_self 1 []), by decide⟩)

end ErrorVector

/-- Counting the members of a duplicate-free list `S ⊆ [0, m)` inside
`range m` recovers its length. -/
theorem length_filter_range_mem {S : List ℕ} {m : ℕ} (hnd : S.Nodup)
    (hlt : ∀ x ∈ S, x < m) :
    ((List.range m).filter (fun i => decide (i ∈ S))).length = S.length := by
  have hnd' : ((List.range m).filter (fun i => decide (i ∈ S))).Nodup :=
    (List.nodup_range m).filter _
  rw [← List.toFinset_card_of_nodup hnd', ← List.toFinset_card_of_nodup hnd]
  congr 1
  ext a
  simp only [List.mem_toFinset, List.mem_filter, List.mem_range, decide_eq_true_eq]
  exact ⟨fun h => h.2, fun h => ⟨hlt a h, h⟩⟩

/-- Counting the non-members of a duplicate-free list `S ⊆ [0, m)` inside
`range m` yields `m - |S|`. -/
theorem length_filter_range_not_mem {S : List ℕ} {m : ℕ} (hnd : S.Nodup)
    (hlt : ∀ x ∈ S, x < m) :
    ((List.range m).filter (fun i => decide (i ∉ S))).length = m - S.length := by
  have hsplit := List.length_eq_length_filter_add (l := List.range m)
    (fun i => decide (i ∈ S))
  have hmem := length_filter_range_mem hnd hlt
  have hco : ((List.range m).filter (fun i => (! decide (i ∈ S)))).length =
      ((List.range m).filter (fun i => decide (i ∉ S))).length := by
    congr 1
    refine List.filter_congr ?_
    intro a _
    simp [decide_not]
  rw [List.length_range] at hsplit
  omega

/-- Number of nonzero coordinates of a vector, read off its index range. -/
def hammingWeight {α : Type} [Zero α] [DecidableEq α] (v : List α) : ℕ :=
  ((List.range v.length).filter (fun i => decide (v.getD i 0 ≠ 0))).length

/-- If the support of `v` is exactly the duplicate-free position list `S`,
its Hamming weight is `|S|`. -/
theorem hammingWeight_eq_of_support {α : Type} [Zero α] [DecidableEq α]
    (v : List α) (S : List ℕ) (hnd : S.Nodup) (hlt : ∀ x ∈ S, x < v.length)
    (hiff : ∀ j, j < v.length → (v.getD j 0 ≠ 0 ↔ j ∈ S)) :
    hammingWeight v = S.length := by
  rw [hammingWeight]
  have hcong : ((List.range v.length).filter (fun i => decide (v.getD i 0 ≠ 0))) =
      ((List.range v.length).filter (fun i => decide (i ∈ S))) := by
    refine List.filter_congr ?_
    intro a ha
    simp only [decide_eq_decide]
    exact hiff a (List.mem_range.1 ha)
  rw [hcong]
  exact length_filter_range_mem hnd hlt

/-- A configured error or erasure count: a plain integer, or an inclusive
integer range (the Python tuple case of the `hasattr "__iter__"` dispatch). -/
inductive ErrCount : Type
  | fixed (v : ℤ)
  | tuple (lo hi : ℤ)

/-- Embedding of `_tuple_to_integer(value)`: a plain integer passes through
unchanged, a tuple is resolved to `randint(lo, hi)`, modelled by the oracle
`rnd`. -/
def tuple_to_integer : ErrCount → (ℤ → ℤ → ℤ) → ℤ
  | .fixed v, _ => v
  | .tuple lo hi, rnd => rnd lo hi

/-- The value checked by the constructors: the count itself, or its upper
bound `number_errors[1]` for a tuple. -/
def countUpper : ErrCount → ℤ
  | .fixed v => v
  | .tuple _ hi => hi

/-- Embedding of the validation in `StaticErrorRateChannel.__init__`: raise
`ValueError` exactly when the (upper bound of the) configured error count
exceeds the dimension of the input space. -/
def staticErrorRateChannel_init (dim : ℕ) (number_errors : ErrCount) :
    Except String ErrCount :=
  if countUpper number_errors > (dim : ℤ) then
    Except.error "There might be more errors than the dimension of the input space"
  else Except.ok number_errors

/-- Embedding of the validation in `ErrorErasureChannel.__init__`: raise
`ValueError` exactly when the sum of the two (upper bounds of the) configured
counts exceeds the dimension of the input space. -/
def errorErasureChannel_init (dim : ℕ) (number_errors number_erasures : ErrCount) :
    Except String (ErrCount × ErrCount) :=
  if countUpper number_errors + countUpper number_erasures > (dim : ℤ) then
    Except.error
      "The total number of errors and erasures can exceed the dimension of the input space"
  else Except.ok (number_errors, number_erasures)

/-- C8: channel construction raises exactly when the configured counts are
infeasible — for `StaticErrorRateChannel` when the error count (or its upper
bound for a range) exceeds the dimension `n`, for `ErrorErasureChannel` when
the sum of the error and erasure upper bounds exceeds `n` — and succeeds
otherwise. -/
theorem channel_init_spec (dim : ℕ) (ce cr : ErrCount) :
    ((∃ msg, staticErrorRateChannel_init dim ce = Except.error msg) ↔
      (dim : ℤ) < countUpper ce) ∧
    (staticErrorRateChannel_init dim ce = Except.ok ce ↔ countUpper ce ≤ (dim : ℤ)) ∧
    ((∃ msg, errorErasureChannel_init dim ce cr = Except.error msg) ↔
      (dim : ℤ) < countUpper ce + countUpper cr) ∧
    (errorErasureChannel_init dim ce cr = Except.ok (ce, cr) ↔
      countUpper ce + countUpper cr ≤ (dim : ℤ)) := by
  refine ⟨⟨?_, ?_⟩, ⟨?_, ?_⟩, ⟨?_, ?_⟩, ⟨?_, ?_⟩⟩
  · rintro ⟨msg, hmsg⟩
    by_contra hgt
    rw [staticErrorRateChannel_init, if_neg (by omega)] at hmsg
    cases hmsg
  · intro h
    exact ⟨_, by rw [staticErrorRateChannel_init, if_pos (by omega)]⟩
  · intro h
    by_contra hgt
    rw [staticErrorRateChannel_init, if_pos (by omega)] at h
    cases h
  · intro h
    rw [staticErrorRateChannel_init, if_neg (by omega)]
  · rintro ⟨msg, hmsg⟩
    by_contra hgt
    rw [errorErasureChannel_init, if_neg (by omega)] at hmsg
    cases hmsg
  · intro h
    exact ⟨_, by rw [errorErasureChannel_init, if_pos (by omega)]⟩
  · intro h
    by_contra hgt
    rw [errorErasureChannel_init, if_pos (by omega)] at h
    cases h
  · intro h
    rw [errorErasureChannel_init, if_neg (by omega)]

section StaticChannel

variable {F : Type} [Field F] [DecidableEq F]

/-- Embedding of `StaticErrorRateChannel.transmit_unsafe(message)`: resolve the
configured count, sample that many positions, build the error vector and add
it to the message. -/
def static_transmit (n : ℕ) (number_errors : ErrCount) (rnd : ℤ → ℤ → ℤ)
    (draws : ℕ → ℚ) (vals : ℕ → List F) (message : List F) : Option (List F) :=
  (random_error_vector n
      (random_error_position (n : ℤ) (tuple_to_integer number_errors rnd) draws)
      vals).map
    (fun error_vector => List.zipWith (· + ·) message error_vector)

/-- Subtracting the original message from the corrupted one recovers the
error vector. -/
theorem zipWith_add_sub :
    ∀ (a b : List F), a.length = b.length →
      List.zipWith (fun x y => x - y) (List.zipWith (· + ·) a b) a = b := by
  intro a
  induction a with
  | nil =>
    intro b hb
    cases b with
    | nil => rfl
    | cons y u => simp at hb
  | cons x t ih =>
    intro b hb
    cases b with
    | nil => simp at hb
    | cons y u =>
      simp only [List.zipWith_cons_cons, List.cons.injEq]
      refine ⟨by ring, ih u (by simpa using hb)⟩

/-- C3: a `StaticErrorRateChannel` with a fixed error count `e ≤ n` over a
field (with adequate nonzero draw streams) corrupts any message of length `n`
so that `transmit_unsafe(v) - v` has Hamming weight exactly `e`. -/
theorem static_transmit_weight (n e : ℕ) (rnd : ℤ → ℤ → ℤ) (draws : ℕ → ℚ)
    (vals : ℕ → List F) (message : List F)
    (he : e ≤ n) (hmsg : message.length = n)
    (hd : ∀ j, 0 ≤ draws j ∧ draws j < 1)
    (hex : ∀ i, ∃ a ∈ vals i, a ≠ 0) :
    ∃ w, static_transmit n (ErrCount.fixed e) rnd draws vals message = some w ∧
      w.length = n ∧
      hammingWeight (List.zipWith (fun x y => x - y) w message) = e := by
  obtain ⟨hlen, hnd, hlt⟩ := random_error_position_props n e draws he hd
  obtain ⟨ev, hev, hevlen, hzero, hnonzero⟩ :=
    random_error_vector_props n (random_error_position (n : ℤ) e draws) vals
      hlt (fun i _ => hex i)
  refine ⟨List.zipWith (· + ·) message ev, ?_, ?_, ?_⟩
  · rw [static_transmit]
    have : tuple_to_integer (ErrCount.fixed (e : ℤ)) rnd = (e : ℤ) := rfl
    rw [this, hev]
    rfl
  · simp [hmsg, hevlen]
  · rw [zipWith_add_sub message ev (by omega), ← hlen]
    refine hammingWeight_eq_of_support ev _ hnd
      (fun x hx => by have := hlt x hx; omega) ?_
    intro j hj
    constructor
    · intro hne
      by_contra hmem
      exact hne (hzero j hmem)
    · intro hmem
      exact hnonzero j hmem

/-- Witness for C3 over `GF(2)` at `n = 1`, `e = 1`. -/
theorem static_transmit_weight_witness :
    ∃ w, static_transmit 1 (ErrCount.fixed 1) (fun lo _ => lo)
        (fun _ => (1 : ℚ)/2) (fun _ => [(1 : ZMod 2)]) [(0 : ZMod 2)] = some w ∧
      w.length = 1 ∧
      hammingWeight (List.zipWith (fun x y => x - y) w [(0 : ZMod 2)]) = 1 :=
  static_transmit_weight 1 1 (fun lo _ => lo) (fun _ => (1 : ℚ)/2)
    (fun _ => [(1 : ZMod 2)]) [(0 : ZMod 2)] (by norm_num) rfl
    (fun _ => by norm_num)
    (fun i => ⟨1, List.mem_cons_self 1 [], by decide⟩)

end StaticChannel

/-- Indices of a duplicate-free list are recoverable from its values. -/
theorem nodup_getD_inj {L : List ℕ} (hnd : L.Nodup) {i j : ℕ}
    (hi : i < L.length) (hj : j < L.length) (h : L.getD i 0 = L.getD j 0) : i = j := by
  rw [List.getD_eq_getElem _ _ hi, List.getD_eq_getElem _ _ hj] at h
  have h2 : L.get ⟨i, hi⟩ = L.get ⟨j, hj⟩ := by simpa using h
  have h3 := List.nodup_iff_injective_get.1 hnd h2
  simpa using h3

/-- An in-range default read is a member of the list. -/
theorem getD_mem_of_lt {L : List ℕ} {i : ℕ} (hi : i < L.length) : L.getD i 0 ∈ L := by
  rw [List.getD_eq_getElem _ _ hi]
  exact List.getElem_mem hi

section ErrorErasure

variable {F : Type} [Field F] [DecidableEq F]

/-- The position lists computed at the start of
`ErrorErasureChannel.transmit_unsafe` from the resolved counts `e` and `r`:
a combined draw of `e + r` positions out of `n`, then a split of its index
range `[0, e + r)` into the indices that become errors (a further draw of `e`
out of `e + r`) and the rest, which become erasures.  Component 1 is
`error_positions`, component 2 is `erasure_positions`. -/
def ee_split_positions (n : ℕ) (e r : ℤ) (d1 d2 : ℕ → ℚ) : List ℕ × List ℕ :=
  let erroneous_positions := random_error_position (n : ℤ) (e + r) d1
  let error_split := random_error_position (e + r) e d2
  (((List.range (e + r).toNat).filter (fun i => decide (i ∈ error_split))).map
      (fun i => erroneous_positions.getD i 0),
   ((List.range (e + r).toNat).filter (fun i => decide (i ∉ error_split))).map
      (fun i => erroneous_positions.getD i 0))

/-- Embedding of `ErrorErasureChannel.transmit_unsafe(message)`: resolve both
counts, draw and split the corrupted positions, build the error vector over
`F` and the erasure vector over `GF(2)`, add the error vector to the message,
then overwrite every erasure position with zero and return the pair. -/
def ee_transmit (n : ℕ) (number_errors number_erasures : ErrCount)
    (rnd1 rnd2 : ℤ → ℤ → ℤ) (d1 d2 : ℕ → ℚ)
    (valsF : ℕ → List F) (vals2 : ℕ → List (ZMod 2)) (message : List F) :
    Option (List F × List (ZMod 2)) :=
  let ne := tuple_to_integer number_errors rnd1
  let nr := tuple_to_integer number_erasures rnd2
  let ps := ee_split_positions n ne nr d1 d2
  match random_error_vector n ps.1 valsF, random_error_vector n ps.2 vals2 with
  | some error_vector, some erasure_vector =>
    some (ps.2.foldl (fun m i => m.set i 0) (List.zipWith (· + ·) message error_vector),
      erasure_vector)
  | _, _ => none

/-- Structural guarantees of the draw-and-split phase: the error and erasure
position lists have lengths `e` and `r`, are duplicate-free, lie in `[0, n)`,
are disjoint, and jointly exhaust the combined draw. -/
theorem ee_split_positions_props (n e r : ℕ) (d1 d2 : ℕ → ℚ)
    (her : e + r ≤ n)
    (hd1 : ∀ j, 0 ≤ d1 j ∧ d1 j < 1) (hd2 : ∀ j, 0 ≤ d2 j ∧ d2 j < 1) :
    (ee_split_positions n (e : ℤ) (r : ℤ) d1 d2).1.length = e ∧
    (ee_split_positions n (e : ℤ) (r : ℤ) d1 d2).2.length = r ∧
    (ee_split_positions n (e : ℤ) (r : ℤ) d1 d2).1.Nodup ∧
    (ee_split_positions n (e : ℤ) (r : ℤ) d1 d2).2.Nodup ∧
    (∀ x ∈ (ee_split_positions n (e : ℤ) (r : ℤ) d1 d2).1, x < n) ∧
    (∀ x ∈ (ee_split_positions n (e : ℤ) (r : ℤ) d1 d2).2, x < n) ∧
    (∀ x ∈ (ee_split_positions n (e : ℤ) (r : ℤ) d1 d2).2,
      x ∉ (ee_split_positions n (e : ℤ) (r : ℤ) d1 d2).1) ∧
    (∀ x, x ∉ random_error_position (n : ℤ) ((e : ℤ) + (r : ℤ)) d1 →
      x ∉ (ee_split_positions n (e : ℤ) (r : ℤ) d1 d2).1 ∧
      x ∉ (ee_split_positions n (e : ℤ) (r : ℤ) d1 d2).2) := by
  have hcast : ((e + r : ℕ) : ℤ) = (e : ℤ) + (r : ℤ) := by push_cast; ring
  obtain ⟨hElen, hEnd, hElt⟩ := random_error_position_props n (e + r) d1 her hd1
  obtain ⟨hSlen, hSnd, hSlt⟩ := random_error_position_props (e + r) e d2 (by omega) hd2
  rw [hcast] at hElen hEnd hElt hSlen hSnd hSlt
  set erroneous := random_error_position (n : ℤ) ((e : ℤ) + (r : ℤ)) d1 with herr
  set split := random_error_position ((e : ℤ) + (r : ℤ)) (e : ℤ) d2 with hspl
  have htn : ((e : ℤ) + (r : ℤ)).toNat = e + r := by omega
  have hsgoal : ee_split_positions n (e : ℤ) (r : ℤ) d1 d2 =
      (((List.range (e + r)).filter (fun i => decide (i ∈ split))).map
          (fun i => erroneous.getD i 0),
       ((List.range (e + r)).filter (fun i => decide (i ∉ split))).map
          (fun i => erroneous.getD i 0)) := by
    rw [ee_split_positions, htn]
  rw [hsgoal]
  have hmemlen :
      ((List.range (e + r)).filter (fun i => decide (i ∈ split))).length = e := by
    rw [length_filter_range_mem hSnd hSlt, hSlen]
  have hnotmemlen :
      ((List.range (e + r)).filter (fun i => decide (i ∉ split))).length = r := by
    rw [length_filter_range_not_mem hSnd hSlt, hSlen]
    omega
  have hidx1 : ∀ i ∈ (List.range (e + r)).filter (fun i => decide (i ∈ split)),
      i < e + r := by
    intro i hi
    exact List.mem_range.1 (List.mem_of_mem_filter hi)
  have hidx2 : ∀ i ∈ (List.range (e + r)).filter (fun i => decide (i ∉ split)),
      i < e + r := by
    intro i hi
    exact List.mem_range.1 (List.mem_of_mem_filter hi)
  have hval : ∀ i, i < e + r → erroneous.getD i 0 ∈ erroneous := by
    intro i hi
    exact getD_mem_of_lt (by omega)
  refine ⟨?_, ?_, ?_, ?_, ?_, ?_, ?_, ?_⟩
  · rw [List.length_map]
    exact hmemlen
  · rw [List.length_map]
    exact hnotmemlen
  · refine List.Nodup.map_on ?_ ((List.nodup_range (e + r)).filter _)
    intro x hx y hy hxy
    exact nodup_getD_inj hEnd (by have := hidx1 x hx; omega)
      (by have := hidx1 y hy; omega) hxy
  · refine List.Nodup.map_on ?_ ((List.nodup_range (e + r)).filter _)
    intro x hx y hy hxy
    exact nodup_getD_inj hEnd (by have := hidx2 x hx; omega)
      (by have := hidx2 y hy; omega) hxy
  · intro x hx
    obtain ⟨i, hi, rfl⟩ := List.mem_map.1 hx
    exact hElt _ (hval i (hidx1 i hi))
  · intro x hx
    obtain ⟨i, hi, rfl⟩ := List.mem_map.1 hx
    exact hElt _ (hval i (hidx2 i hi))
  · intro x hx hmem
    obtain ⟨i, hi, hieq⟩ := List.mem_map.1 hx
    obtain ⟨j, hj, hjeq⟩ := List.mem_map.1 hmem
    have hij : j = i := nodup_getD_inj hEnd (by have := hidx1 j hj; omega)
      (by have := hidx2 i hi; omega) (hjeq.trans hieq.symm)
    subst hij
    have h1 : (decide (j ∈ split)) = true := (List.mem_filter.1 hj).2
    have h2 : (decide (j ∉ split)) = true := (List.mem_filter.1 hi).2
    simp only [decide_eq_true_eq] at h1 h2
    exact h2 h1
  · intro x hx
    constructor
    · intro hmem
      obtain ⟨i, hi, rfl⟩ := List.mem_map.1 hmem
      exact hx (hval i (hidx1 i hi))
    · intro hmem
      obtain ⟨i, hi, rfl⟩ := List.mem_map.1 hmem
      exact hx (hval i (hidx2 i hi))

end ErrorErasure

/-- The erasure loop `for i in erasure_positions: message[i] = 0` preserves
the vector length. -/
theorem foldl_set_length {α : Type} (z : α) :
    ∀ (ps : List ℕ) (v : List α),
      (ps.foldl (fun m i => m.set i z) v).length = v.length := by
  intro ps
  induction ps with
  | nil => intro v; rfl
  | cons i rest ih =>
    intro v
    rw [List.foldl_cons, ih (v.set i z), List.length_set]

/-- The erasure loop leaves unlisted coordinates unchanged. -/
theorem foldl_set_not_mem {α : Type} (z d : α) :
    ∀ (ps : List ℕ) (v : List α) (j : ℕ), j ∉ ps →
      (ps.foldl (fun m i => m.set i z) v).getD j d = v.getD j d := by
  intro ps
  induction ps with
  | nil => intro v j _; rfl
  | cons i rest ih =>
    intro v j hj
    rw [List.foldl_cons, ih (v.set i z) j (fun hh => hj (List.mem_cons_of_mem i hh)),
      getD_set_ne v d z
        (fun hh => hj (by rw [← hh]; exact List.mem_cons_self i rest))]

/-- The erasure loop zeroes every listed in-range coordinate. -/
theorem foldl_set_mem {α : Type} (z d : α) :
    ∀ (ps : List ℕ) (v : List α) (j : ℕ), j ∈ ps → j < v.length →
      (ps.foldl (fun m i => m.set i z) v).getD j d = z := by
  intro ps
  induction ps with
  | nil => intro v j hj _; simp at hj
  | cons i rest ih =>
    intro v j hj hjlen
    rw [List.foldl_cons]
    by_cases hjr : j ∈ rest
    · exact ih (v.set i z) j hjr (by rw [List.length_set]; omega)
    · have hji : j = i := by
        rcases List.mem_cons.1 hj with h | h
        · exact h
        · exact absurd h hjr
      subst hji
      rw [foldl_set_not_mem z d rest (v.set j z) j hjr,
        getD_set_self v d z hjlen]

section ErrorErasureProofs

variable {F : Type} [Field F] [DecidableEq F]

/-- Pointwise reading of the vector sum `message + error_vector`. -/
theorem getD_zipWith_add {a b : List F} {i : ℕ} (ha : i < a.length) (hb : i < b.length) :
    (List.zipWith (· + ·) a b).getD i 0 = a.getD i 0 + b.getD i 0 := by
  have hz : i < (List.zipWith (· + ·) a b).length := by
    rw [List.length_zipWith]
    omega
  rw [List.getD_eq_getElem _ _ hz, List.getD_eq_getElem _ _ ha, List.getD_eq_getElem _ _ hb]
  exact List.getElem_zipWith

/-- The only nonzero element of `GF(2)` is `1`. -/
theorem zmod_two_ne_zero : ∀ x : ZMod 2, x ≠ 0 → x = 1 := by decide

/-- Master description of an `ErrorErasureChannel.transmit_unsafe` run with
resolved counts `e` and `r`, `e + r ≤ n`: the call returns a pair of length-`n`
vectors; the indicator has Hamming weight `r` and marks exactly the erasure
positions; the corrupted vector is zero at every erasure position, agrees with
`message` outside the combined draw, and the erasure positions avoid the error
positions. -/
theorem ee_transmit_master (n e r : ℕ) (ce cr : ErrCount)
    (rnd1 rnd2 : ℤ → ℤ → ℤ) (d1 d2 : ℕ → ℚ)
    (valsF : ℕ → List F) (vals2 : ℕ → List (ZMod 2)) (message : List F)
    (hce : tuple_to_integer ce rnd1 = (e : ℤ)) (hcr : tuple_to_integer cr rnd2 = (r : ℤ))
    (her : e + r ≤ n) (hmsg : message.length = n)
    (hd1 : ∀ j, 0 ≤ d1 j ∧ d1 j < 1) (hd2 : ∀ j, 0 ≤ d2 j ∧ d2 j < 1)
    (hexF : ∀ i, ∃ a ∈ valsF i, a ≠ 0) (hex2 : ∀ i, ∃ a ∈ vals2 i, a ≠ 0) :
    ∃ c ind,
      ee_transmit n ce cr rnd1 rnd2 d1 d2 valsF vals2 message = some (c, ind) ∧
      c.length = n ∧ ind.length = n ∧
      hammingWeight ind = r ∧
      (∀ i, i < n → (ind.getD i 0 = 1 ↔ i ∈ (ee_split_positions n (e : ℤ) (r : ℤ) d1 d2).2)) ∧
      (∀ i ∈ (ee_split_positions n (e : ℤ) (r : ℤ) d1 d2).2, c.getD i 0 = 0) ∧
      (∀ i ∈ (ee_split_positions n (e : ℤ) (r : ℤ) d1 d2).2,
        i ∉ (ee_split_positions n (e : ℤ) (r : ℤ) d1 d2).1) ∧
      (∀ i, i < n → i ∉ random_error_position (n : ℤ) ((e : ℤ) + (r : ℤ)) d1 →
        c.getD i 0 = message.getD i 0) ∧
      (∀ i, i < n → ind.getD i 0 = 1 → c.getD i 0 = 0) := by
  obtain ⟨hEPlen, hERlen, hEPnd, hERnd, hEPlt, hERlt, hdisj, hout⟩ :=
    ee_split_positions_props n e r d1 d2 her hd1 hd2
  set EP := (ee_split_positions n (e : ℤ) (r : ℤ) d1 d2).1 with hEP
  set ER := (ee_split_positions n (e : ℤ) (r : ℤ) d1 d2).2 with hER
  obtain ⟨ev, hev, hevlen, hevzero, hevnonzero⟩ :=
    random_error_vector_props n EP valsF hEPlt (fun i _ => hexF i)
  obtain ⟨ind, hind, hindlen, hindzero, hindnonzero⟩ :=
    random_error_vector_props n ER vals2 hERlt (fun i _ => hex2 i)
  set c := ER.foldl (fun m i => m.set i 0) (List.zipWith (· + ·) message ev) with hc
  have hclen : c.length = n := by
    rw [hc, foldl_set_length, List.length_zipWith]
    omega
  have htrans :
      ee_transmit n ce cr rnd1 rnd2 d1 d2 valsF vals2 message = some (c, ind) := by
    rw [ee_transmit]
    simp only [hce, hcr]
    rw [← hEP, ← hER, hev, hind]
  have hindiff : ∀ i, i < n → (ind.getD i 0 = 1 ↔ i ∈ ER) := by
    intro i hi
    constructor
    · intro h1
      by_contra hmem
      rw [hindzero i hmem] at h1
      exact one_ne_zero h1.symm
    · intro hmem
      exact zmod_two_ne_zero _ (hindnonzero i hmem)
  have hczero : ∀ i ∈ ER, c.getD i 0 = 0 := by
    intro i hi
    rw [hc]
    refine foldl_set_mem 0 0 ER _ i hi ?_
    rw [List.length_zipWith]
    have := hERlt i hi
    omega
  refine ⟨c, ind, htrans, hclen, hindlen, ?_, hindiff, hczero, hdisj, ?_, ?_⟩
  · rw [← hERlen]
    refine hammingWeight_eq_of_support ind ER hERnd
      (fun x hx => by have := hERlt x hx; omega) ?_
    intro j hj
    rw [hindlen] at hj
    constructor
    · intro hne
      by_contra hmem
      exact hne (hindzero j hmem)
    · intro hmem
      exact hindnonzero j hmem
  · intro i hi hmem
    obtain ⟨hnotEP, hnotER⟩ := hout i hmem
    rw [hc, foldl_set_not_mem 0 0 ER _ i hnotER,
      getD_zipWith_add (by omega) (by omega), hevzero i hnotEP, add_zero]
  · intro i hi h1
    exact hczero i ((hindiff i hi).1 h1)

/-- C4 (amended): for fixed counts `(e, r)` with `e + r ≤ n`, the returned
erasure indicator vector has Hamming weight exactly `r`, and the set of
positions where the indicator equals 1 (the erasure positions) is disjoint
from the set of error positions at which the channel added its nonzero error
values.  (As stated the claim fails: at an erased position the corrupted
entry is overwritten with zero, so `corrupted[i] - v[i] ≠ 0` there whenever
`v[i] ≠ 0`.) -/
theorem ee_indicator_weight_disjoint (n e r : ℕ) (rnd1 rnd2 : ℤ → ℤ → ℤ)
    (d1 d2 : ℕ → ℚ) (valsF : ℕ → List F) (vals2 : ℕ → List (ZMod 2))
    (message : List F)
    (her : e + r ≤ n) (hmsg : message.length = n)
    (hd1 : ∀ j, 0 ≤ d1 j ∧ d1 j < 1) (hd2 : ∀ j, 0 ≤ d2 j ∧ d2 j < 1)
    (hexF : ∀ i, ∃ a ∈ valsF i, a ≠ 0) (hex2 : ∀ i, ∃ a ∈ vals2 i, a ≠ 0) :
    ∃ c ind,
      ee_transmit n (ErrCount.fixed e) (ErrCount.fixed r) rnd1 rnd2 d1 d2
        valsF vals2 message = some (c, ind) ∧
      hammingWeight ind = r ∧
      (∀ i, i < n →
        (ind.getD i 0 = 1 ↔ i ∈ (ee_split_positions n (e : ℤ) (r : ℤ) d1 d2).2)) ∧
      (∀ i ∈ (ee_split_positions n (e : ℤ) (r : ℤ) d1 d2).2,
        i ∉ (ee_split_positions n (e : ℤ) (r : ℤ) d1 d2).1) := by
  obtain ⟨c, ind, htrans, -, -, hw, hiff, -, hdisj, -, -⟩ :=
    ee_transmit_master n e r (ErrCount.fixed e) (ErrCount.fixed r)
      rnd1 rnd2 d1 d2 valsF vals2 message rfl rfl her hmsg hd1 hd2 hexF hex2
  exact ⟨c, ind, htrans, hw, hiff, hdisj⟩

/-- Witness for the amended C4 over `GF(2)` at `n = 1`, `e = 0`, `r = 1`. -/
theorem ee_indicator_weight_disjoint_witness :
    ∃ c ind,
      ee_transmit 1 (ErrCount.fixed 0) (ErrCount.fixed 1)
        (fun a _ => a) (fun a _ => a) (fun _ => (1 : ℚ)/2) (fun _ => (1 : ℚ)/2)
        (fun _ => [(1 : ZMod 2)]) (fun _ => [(1 : ZMod 2)]) [(0 : ZMod 2)]
        = some (c, ind) ∧
      hammingWeight ind = 1 ∧
      (∀ i, i < 1 →
        (ind.getD i 0 = 1 ↔
          i ∈ (ee_split_positions 1 ((0 : ℕ) : ℤ) ((1 : ℕ) : ℤ)
                (fun _ => (1 : ℚ)/2) (fun _ => (1 : ℚ)/2)).2)) ∧
      (∀ i ∈ (ee_split_positions 1 ((0 : ℕ) : ℤ) ((1 : ℕ) : ℤ)
                (fun _ => (1 : ℚ)/2) (fun _ => (1 : ℚ)/2)).2,
        i ∉ (ee_split_positions 1 ((0 : ℕ) : ℤ) ((1 : ℕ) : ℤ)
                (fun _ => (1 : ℚ)/2) (fun _ => (1 : ℚ)/2)).1) :=
  ee_indicator_weight_disjoint 1 0 1 (fun a _ => a) (fun a _ => a)
    (fun _ => (1 : ℚ)/2) (fun _ => (1 : ℚ)/2)
    (fun _ => [(1 : ZMod 2)]) (fun _ => [(1 : ZMod 2)]) [(0 : ZMod 2)]
    (by norm_num) rfl (fun _ => by norm_num) (fun _ => by norm_num)
    (fun _ => ⟨1, List.mem_cons_self 1 [], by decide⟩)
    (fun _ => ⟨1, List.mem_cons_self 1 [], by decide⟩)

/-- Counterexample to C4 as stated: over `GF(2)` with `n = 1`, `e = 0`,
`r = 1` and message `v = (1)`, the run returns `((0), (1))`; position `0` has
indicator 1 and also `corrupted[0] - v[0] = 0 - 1 ≠ 0`, so the set of erased
positions is not disjoint from the set where the corrupted vector differs
from `v`. -/
theorem ee_disjoint_cex :
    ee_transmit 1 (ErrCount.fixed 0) (ErrCount.fixed 1)
        (fun a _ => a) (fun a _ => a) (fun _ => (1 : ℚ)/2) (fun _ => (1 : ℚ)/2)
        (fun _ => [(1 : ZMod 2)]) (fun _ => [(1 : ZMod 2)]) [(1 : ZMod 2)]
      = some ([0], [1]) ∧
    ¬ (∀ i, i < 1 →
        ¬ (([(1 : ZMod 2)] : List (ZMod 2)).getD i 0 = 1 ∧
           ([(0 : ZMod 2)] : List (ZMod 2)).getD i 0 -
             ([(1 : ZMod 2)] : List (ZMod 2)).getD i 0 ≠ 0)) := by
  constructor
  · norm_num [ee_transmit, ee_split_positions, tuple_to_integer,
      random_error_position, sampleAux, random_error_vector, revStep, drawNonzero]
  · decide

/-- C5: an `ErrorErasureChannel` transmission with resolved counts `(e, r)`,
`e + r ≤ n`, returns a positionally aligned pair of vectors of dimension `n`:
the indicator is 1 at `i` exactly when position `i` was erased, and the
corrupted vector holds the field zero at every erased position. -/
theorem ee_erasure_alignment (n e r : ℕ) (ce cr : ErrCount)
    (rnd1 rnd2 : ℤ → ℤ → ℤ) (d1 d2 : ℕ → ℚ)
    (valsF : ℕ → List F) (vals2 : ℕ → List (ZMod 2)) (message : List F)
    (hce : tuple_to_integer ce rnd1 = (e : ℤ)) (hcr : tuple_to_integer cr rnd2 = (r : ℤ))
    (her : e + r ≤ n) (hmsg : message.length = n)
    (hd1 : ∀ j, 0 ≤ d1 j ∧ d1 j < 1) (hd2 : ∀ j, 0 ≤ d2 j ∧ d2 j < 1)
    (hexF : ∀ i, ∃ a ∈ valsF i, a ≠ 0) (hex2 : ∀ i, ∃ a ∈ vals2 i, a ≠ 0) :
    ∃ c ind,
      ee_transmit n ce cr rnd1 rnd2 d1 d2 valsF vals2 message = some (c, ind) ∧
      c.length = n ∧ ind.length = n ∧
      (∀ i, i < n →
        (ind.getD i 0 = 1 ↔ i ∈ (ee_split_positions n (e : ℤ) (r : ℤ) d1 d2).2)) ∧
      (∀ i ∈ (ee_split_positions n (e : ℤ) (r : ℤ) d1 d2).2, c.getD i 0 = 0) := by
  obtain ⟨c, ind, htrans, hclen, hindlen, -, hiff, hzero, -, -, -⟩ :=
    ee_transmit_master n e r ce cr rnd1 rnd2 d1 d2 valsF vals2 message
      hce hcr her hmsg hd1 hd2 hexF hex2
  exact ⟨c, ind, htrans, hclen, hindlen, hiff, hzero⟩

/-- Witness for C5 over `GF(2)` at `n = 2` with the range count `(0, 1)`
resolved to `1` error and a fixed count of `1` erasure. -/
theorem ee_erasure_alignment_witness :
    ∃ c ind,
      ee_transmit 2 (ErrCount.tuple 0 1) (ErrCount.fixed 1)
        (fun _ hi => hi) (fun a _ => a) (fun _ => 0) (fun _ => 0)
        (fun _ => [(1 : ZMod 2)]) (fun _ => [(1 : ZMod 2)]) [(0 : ZMod 2), 0]
        = some (c, ind) ∧
      c.length = 2 ∧ ind.length = 2 ∧
      (∀ i, i < 2 →
        (ind.getD i 0 = 1 ↔
          i ∈ (ee_split_positions 2 ((1 : ℕ) : ℤ) ((1 : ℕ) : ℤ)
                (fun _ => 0) (fun _ => 0)).2)) ∧
      (∀ i ∈ (ee_split_positions 2 ((1 : ℕ) : ℤ) ((1 : ℕ) : ℤ)
                (fun _ => 0) (fun _ => 0)).2, c.getD i 0 = 0) :=
  ee_erasure_alignment 2 1 1 (ErrCount.tuple 0 1) (ErrCount.fixed 1)
    (fun _ hi => hi) (fun a _ => a) (fun _ => 0) (fun _ => 0)
    (fun _ => [(1 : ZMod 2)]) (fun _ => [(1 : ZMod 2)]) [(0 : ZMod 2), 0]
    rfl rfl (by norm_num) rfl (fun _ => by norm_num) (fun _ => by norm_num)
    (fun _ => ⟨1, List.mem_cons_self 1 [], by decide⟩)
    (fun _ => ⟨1, List.mem_cons_self 1 [], by decide⟩)

/-- C10: at every position outside the combined set of `e + r` sampled
positions, the corrupted vector returned by `ErrorErasureChannel` agrees with
the transmitted message. -/
theorem ee_untouched_positions (n e r : ℕ) (ce cr : ErrCount)
    (rnd1 rnd2 : ℤ → ℤ → ℤ) (d1 d2 : ℕ → ℚ)
    (valsF : ℕ → List F) (vals2 : ℕ → List (ZMod 2)) (message : List F)
    (hce : tuple_to_integer ce rnd1 = (e : ℤ)) (hcr : tuple_to_integer cr rnd2 = (r : ℤ))
    (her : e + r ≤ n) (hmsg : message.length = n)
    (hd1 : ∀ j, 0 ≤ d1 j ∧ d1 j < 1) (hd2 : ∀ j, 0 ≤ d2 j ∧ d2 j < 1)
    (hexF : ∀ i, ∃ a ∈ valsF i, a ≠ 0) (hex2 : ∀ i, ∃ a ∈ vals2 i, a ≠ 0) :
    ∃ c ind,
      ee_transmit n ce cr rnd1 rnd2 d1 d2 valsF vals2 message = some (c, ind) ∧
      ∀ i, i < n → i ∉ random_error_position (n : ℤ) ((e : ℤ) + (r : ℤ)) d1 →
        c.getD i 0 = message.getD i 0 := by
  obtain ⟨c, ind, htrans, -, -, -, -, -, -, huntouched, -⟩ :=
    ee_transmit_master n e r ce cr rnd1 rnd2 d1 d2 valsF vals2 message
      hce hcr her hmsg hd1 hd2 hexF hex2
  exact ⟨c, ind, htrans, huntouched⟩

/-- Witness for C10 over `GF(2)` at `n = 2`, `e = 1`, `r = 0`. -/
theorem ee_untouched_positions_witness :
    ∃ c ind,
      ee_transmit 2 (ErrCount.fixed 1) (ErrCount.fixed 0)
        (fun a _ => a) (fun a _ => a) (fun _ => 0) (fun _ => 0)
        (fun _ => [(1 : ZMod 2)]) (fun _ => [(1 : ZMod 2)]) [(0 : ZMod 2), 0]
        = some (c, ind) ∧
      ∀ i, i < 2 →
        i ∉ random_error_position ((2 : ℕ) : ℤ) (((1 : ℕ) : ℤ) + ((0 : ℕ) : ℤ))
            (fun _ => 0) →
        c.getD i 0 = ([(0 : ZMod 2), 0] : List (ZMod 2)).getD i 0 :=
  ee_untouched_positions 2 1 0 (ErrCount.fixed 1) (ErrCount.fixed 0)
    (fun a _ => a) (fun a _ => a) (fun _ => 0) (fun _ => 0)
    (fun _ => [(1 : ZMod 2)]) (fun _ => [(1 : ZMod 2)]) [(0 : ZMod 2), 0]
    rfl rfl (by norm_num) rfl (fun _ => by norm_num) (fun _ => by norm_num)
    (fun _ => ⟨1, List.mem_cons_self 1 [], by decide⟩)
    (fun _ => ⟨1, List.mem_cons_self 1 [], by decide⟩)

end ErrorErasureProofs

section HeapModel

variable {F : Type} [Field F] [DecidableEq F]

/-- Store-level rendering of `StaticErrorRateChannel.transmit_unsafe`: the
store is a list of vectors addressed by position; `message + error_vector`
allocates a fresh cell holding the sum, and the returned address points at
that cell.  No existing cell is written. -/
def static_transmit_heap (heap : List (List F)) (msg_addr : ℕ)
    (error_vector : List F) : List (List F) × ℕ :=
  (heap ++ [List.zipWith (· + ·) (heap.getD msg_addr []) error_vector], heap.length)

/-- Store-level rendering of `ErrorErasureChannel.transmit_unsafe`: the local
name `message` is rebound to the freshly allocated sum vector
(`message = message + error_vector`), and the erasure loop `message[i] = 0`
then mutates that fresh cell in place. -/
def ee_transmit_heap (heap : List (List F)) (msg_addr : ℕ) (error_vector : List F)
    (erasure_positions : List ℕ) : List (List F) × ℕ :=
  let heap1 := heap ++ [List.zipWith (· + ·) (heap.getD msg_addr []) error_vector]
  let a := heap.length
  (erasure_positions.foldl (fun h i => h.set a ((h.getD a []).set i 0)) heap1, a)

/-- Writing only through a fixed address leaves every other cell unchanged. -/
theorem foldl_set_addr_other {β : Type} (a a' : ℕ) (hne : a' ≠ a)
    (g : List (List β) → ℕ → List β) :
    ∀ (ps : List ℕ) (h : List (List β)),
      (ps.foldl (fun hh i => hh.set a (g hh i)) h).getD a' [] = h.getD a' [] := by
  intro ps
  induction ps with
  | nil => intro h; rfl
  | cons i rest ih =>
    intro h
    rw [List.foldl_cons, ih (h.set a (g h i)),
      getD_set_ne h [] (g h i) (fun hh => hne hh.symm)]

/-- C9: `transmit_unsafe` of either channel leaves the transmitted vector —
and every other pre-existing cell of the store — unchanged: the corruption,
including the in-place zeroing of erasure positions in the combined channel,
is applied only to the freshly allocated result vector. -/
theorem transmit_no_mutation (heap : List (List F)) (msg_addr : ℕ)
    (error_vector : List F) (erasure_positions : List ℕ)
    (_ha : msg_addr < heap.length) :
    ∀ a', a' < heap.length →
      (static_transmit_heap heap msg_addr error_vector).1.getD a' [] =
        heap.getD a' [] ∧
      (ee_transmit_heap heap msg_addr error_vector erasure_positions).1.getD a' [] =
        heap.getD a' [] := by
  intro a' ha'
  constructor
  · rw [static_transmit_heap]
    exact List.getD_append _ _ _ _ ha'
  · rw [ee_transmit_heap]
    have hne : a' ≠ heap.length := by omega
    rw [foldl_set_addr_other heap.length a' hne _ erasure_positions]
    exact List.getD_append _ _ _ _ ha'

/-- Witness for C9 over `GF(2)` with a one-cell store, read back at the
message address. -/
theorem transmit_no_mutation_witness :
    (static_transmit_heap [[(1 : ZMod 2)]] 0 [(1 : ZMod 2)]).1.getD 0 [] =
      ([[(1 : ZMod 2)]] : List (List (ZMod 2))).getD 0 [] ∧
    (ee_transmit_heap [[(1 : ZMod 2)]] 0 [(1 : ZMod 2)] [0]).1.getD 0 [] =
      ([[(1 : ZMod 2)]] : List (List (ZMod 2))).getD 0 [] :=
  transmit_no_mutation [[(1 : ZMod 2)]] 0 [(1 : ZMod 2)] [0] (by decide) 0
    (by decide)

end HeapModel

end SageChannels
